import Mathlib

/-!
Shallow embedding of `manpage-explorer.py` (ManPage Explorer): a PyQt6 GUI
that builds a catalog of manual pages from the `manpath` search path,
presents it as a filterable tree, renders a selected page via `man`, and
supports in-document highlight search with match navigation.

Strings are modelled as `List Char`; Python string primitives (`strip`,
`lower`, `in`, `split`, `rsplit`, `sorted`, `%`) are translated to explicit
recursive functions over `List Char` (ASCII-faithful, which covers every
string this program manipulates).  The filesystem and the two external
processes (`manpath`, `man`) are abstract parameters.
-/

namespace MPE

/-- Python `str.strip` whitespace test (ASCII whitespace characters). -/
def isPySpace (c : Char) : Bool :=
  c.toNat == 32 || c.toNat == 9 || c.toNat == 10 || c.toNat == 13 ||
    c.toNat == 11 || c.toNat == 12

/-- Python `str.strip()`: drop leading and trailing whitespace. -/
def stripL (s : List Char) : List Char :=
  ((s.dropWhile isPySpace).reverse.dropWhile isPySpace).reverse

/-- Python `str.lower()` on one character (ASCII range, which is what the
program's data contains). -/
def lowerChar (c : Char) : Char :=
  if 65 ≤ c.toNat ∧ c.toNat ≤ 90 then Char.ofNat (c.toNat + 32) else c

/-- Python `str.lower()` on a string. -/
def lowerL (s : List Char) : List Char := s.map lowerChar

/-- Does `q` occur at the start of the second list (case-sensitive)? -/
def startsWithL : List Char → List Char → Bool
  | [], _ => true
  | _ :: _, [] => false
  | a :: as, b :: bs => a == b && startsWithL as bs

/-- Python `q in s` substring test. -/
def containsSub (q : List Char) : List Char → Bool
  | [] => q.isEmpty
  | c :: rest => startsWithL q (c :: rest) || containsSub q rest

/-- Case-insensitive prefix test, the comparison used by
`QTextDocument.find` with its default (case-insensitive) flags. -/
def ciStartsWith : List Char → List Char → Bool
  | [], _ => true
  | _ :: _, [] => false
  | a :: as, b :: bs => lowerChar a == lowerChar b && ciStartsWith as bs

/-- Python `'.' in s`. -/
def hasDot (s : List Char) : Bool := s.any (fun c => c == '.')

/-- Python `s.split(".")[0]`: the part before the first dot. -/
def beforeFirstDot (s : List Char) : List Char :=
  s.takeWhile (fun c => c != '.')

/-- Python `s.rsplit(".", 1)` when a dot is present: split at the last dot. -/
def rsplitLast (s : List Char) : List Char × List Char :=
  let r := s.reverse
  (((r.dropWhile (fun c => c != '.')).drop 1).reverse,
    (r.takeWhile (fun c => c != '.')).reverse)

/-- Lexicographic (code-point) order on strings, Python's `str` order. -/
def lexLe : List Char → List Char → Bool
  | [], _ => true
  | _ :: _, [] => false
  | a :: as, b :: bs =>
    if a.toNat < b.toNat then true
    else if b.toNat < a.toNat then false
    else lexLe as bs

/-- Insert into a sorted list (kernel of insertion sort). -/
def insertLe {α : Type} (le : α → α → Bool) (a : α) : List α → List α
  | [] => [a]
  | b :: bs => if le a b then a :: b :: bs else b :: insertLe le a bs

/-- Stable insertion sort, modelling Python's (stable) `sorted`. -/
def sortLe {α : Type} (le : α → α → Bool) : List α → List α
  | [] => []
  | a :: as => insertLe le a (sortLe le as)

/-- Value of a string of decimal digits, Python `int` on a digit string. -/
def digitsToNat (s : List Char) : Nat :=
  s.foldl (fun acc c => acc * 10 + (c.toNat - 48)) 0

/-- Leading run of decimal digits, Python `re.match(r'\d+', key)`. -/
def leadingDigits (s : List Char) : List Char := s.takeWhile Char.isDigit

/-- Does the identifier start with a decimal digit? -/
def hasLeadingDigit (s : List Char) : Bool := !(leadingDigits s).isEmpty

/-- The source's `section_sort_key`: `(int(re.match(r'\d+', key).group()), key)`,
falling back to `(999, key)` when the regex does not match (bare `except`). -/
def section_sort_key (key : List Char) : Nat × List Char :=
  if hasLeadingDigit key then (digitsToNat (leadingDigits key), key)
  else (999, key)

/-- Python tuple `<=` on the sort keys, the order used by `sorted(..., key=section_sort_key)`. -/
def skeyLe (a b : List Char) : Bool :=
  let x := section_sort_key a
  let y := section_sort_key b
  decide (x.1 < y.1) || (x.1 == y.1 && lexLe x.2 y.2)

/-- Modelled from the spec's words (§4.1 step 6, §8), for comparison with
`skeyLe`: identifiers with no leading digits sort after ALL identifiers
that have leading digits; numeric keys ascending; ties lexicographic. -/
def specSectionLe (a b : List Char) : Bool :=
  match hasLeadingDigit a, hasLeadingDigit b with
  | false, false => lexLe a b
  | false, true => false
  | true, false => true
  | true, true =>
    decide (digitsToNat (leadingDigits a) < digitsToNat (leadingDigits b)) ||
      (digitsToNat (leadingDigits a) == digitsToNat (leadingDigits b) && lexLe a b)

/-- Fuel-driven kernel of `findCI`; any fuel bounding the document length
gives the same result, the fuel only makes the recursion structural. -/
def findCIAux (q : List Char) : Nat → List Char → Nat → List (Nat × Nat)
  | 0, _, _ => []
  | _ + 1, [], _ => []
  | fuel + 1, c :: rest, pos =>
    if ciStartsWith q (c :: rest) then
      (pos, q.length) :: findCIAux q fuel (rest.drop (q.length - 1)) (pos + q.length)
    else
      findCIAux q fuel rest (pos + 1)

/-- Greedy left-to-right non-overlapping case-insensitive search: the
semantics of the `while True: cursor = doc.find(query, cursor)` loop in
`highlight_matches` (`QTextDocument.find` with default flags is
case-insensitive and resumes from the end of the previous match).
Returns `(position, length)` spans; `pos` is the position of the head of
`doc` inside the whole document. -/
def findCI (q : List Char) (doc : List Char) (pos : Nat) : List (Nat × Nat) :=
  findCIAux q doc.length doc pos

/-- Fuel-driven kernel of `csFind`. -/
def csFindAux (q : List Char) : Nat → List Char → Nat → List (Nat × Nat)
  | 0, _, _ => []
  | _ + 1, [], _ => []
  | fuel + 1, c :: rest, pos =>
    if startsWithL q (c :: rest) then
      (pos, q.length) :: csFindAux q fuel (rest.drop (q.length - 1)) (pos + q.length)
    else
      csFindAux q fuel rest (pos + 1)

/-- Modelled from the spec's words (§4.3 "case-sensitive"), for comparison
with `findCI`: the same greedy non-overlapping literal search but
case-sensitive. -/
def csFind (q : List Char) (doc : List Char) (pos : Nat) : List (Nat × Nat) :=
  csFindAux q doc.length doc pos

/-- Does `q` occur (case-insensitively) in `doc` at position `k`? -/
def ciOccursAt (q doc : List Char) (k : Nat) : Bool :=
  ciStartsWith q (doc.drop k)

/-- Spans are in document order and pairwise non-overlapping. -/
def spansOrdered : List (Nat × Nat) → Bool
  | [] => true
  | [_] => true
  | (p, l) :: (p2, l2) :: rest =>
    decide (p + l ≤ p2) && spansOrdered ((p2, l2) :: rest)

/- The GUI state.  `TextArea` models the `QTextEdit`: its document text and
the set of character spans currently carrying the yellow highlight format
(formatting lives in the document, so `setPlainText` discards it). -/

structure TextArea where
  text : List Char
  highlights : List (Nat × Nat)
deriving DecidableEq

/-- A leaf of the tree: one man-page entry with its Qt visibility flag. -/
structure EntryNode where
  label : List Char
  hidden : Bool
deriving DecidableEq

/-- A section node of the tree with its child entries. -/
structure SectionNode where
  hidden : Bool
  entries : List EntryNode
deriving DecidableEq

/-- The mutable state of `ManPageViewer` that the claims talk about. -/
structure ViewerState where
  textArea : TextArea
  searchMatches : List (Nat × Nat)
  currentMatchIndex : Int
  matchLabel : String
  manSearchText : List Char
  topSearchText : List Char
  sections : List SectionNode
  selectedMatch : Option (Nat × Nat)
deriving DecidableEq

/-- State set up by `__init__` / `init_ui`. -/
def initialViewer : ViewerState :=
  { textArea := { text := [], highlights := [] }
    searchMatches := []
    currentMatchIndex := -1
    matchLabel := ""
    manSearchText := []
    topSearchText := []
    sections := []
    selectedMatch := none }

/-- Outcome of one `subprocess.run(...)` renderer invocation:
`completed` is a normal return carrying the exit code and captured stdout
(`subprocess.run` without `check=True` does NOT raise on a non-zero exit);
`raised` is the invocation itself throwing an exception. -/
inductive RenderExec where
  | completed (exitCode : Int) (stdout : List Char)
  | raised (msg : List Char)
deriving DecidableEq

/-- The literal prefix of the placeholder written by the `except` branch of
`display_man`. -/
def errStr : List Char := "Error loading man page: ".toList

/-- The guard-and-split at the head of `display_man`: labels without a dot
are ignored, otherwise split at the last dot. -/
def selectEntry (lab : List Char) : Option (List Char × List Char) :=
  if hasDot lab then some (rsplitLast lab) else none

/-- Model of `ManPageViewer.display_man` (lines 174-184 of the source); the external
`man {section} {name} | col -bx` pipeline is the `render` parameter. -/
def display_man (render : List Char → List Char → RenderExec)
    (st : ViewerState) (lab : List Char) : ViewerState :=
  match selectEntry lab with
  | none => st
  | some (name, sec) =>
    match render name sec with
    | .completed _ out => { st with textArea := { text := out, highlights := [] } }
    | .raised msg => { st with textArea := { text := errStr ++ msg, highlights := [] } }

/-- Model of `ManPageViewer.focus_match` (lines 218-225).  Python `%` on a positive
modulus agrees with `Int.emod`. -/
def focus_match (st : ViewerState) (index : Int) : ViewerState :=
  if st.searchMatches.isEmpty then st
  else
    let i : Int := index % (st.searchMatches.length : Int)
    { st with
      selectedMatch := st.searchMatches[i.toNat]?
      currentMatchIndex := i
      matchLabel := toString (i + 1) ++ " of " ++ toString st.searchMatches.length }

/-- The `Next ▶` button: `focus_match(current_match_index + 1)` (line 84). -/
def nextClick (st : ViewerState) : ViewerState :=
  focus_match st (st.currentMatchIndex + 1)

/-- The `◀ Prev` button: `focus_match(current_match_index - 1)` (line 83). -/
def prevClick (st : ViewerState) : ViewerState :=
  focus_match st (st.currentMatchIndex - 1)

/-- Model of `ManPageViewer.highlight_matches` (lines 186-216): strip the query,
bail out if empty, clear all formatting, rebuild the match list with the
(case-insensitive) document search, highlight each, and focus match 0 when
any match was found. -/
def highlight_matches (st : ViewerState) : ViewerState :=
  let query := stripL st.manSearchText
  if query.isEmpty then st
  else
    let ms := findCI query st.textArea.text 0
    let st1 : ViewerState :=
      { st with
        textArea := { text := st.textArea.text, highlights := ms }
        searchMatches := ms
        currentMatchIndex := -1 }
    if ms.isEmpty then st1 else focus_match st1 0

/-- One entry pass of `filter_tree`: `entry_item.setHidden(not match)`. -/
def filterEntryNode (q : List Char) (e : EntryNode) : EntryNode :=
  { e with hidden := !containsSub q (lowerL e.label) }

/-- One section pass of `filter_tree`: hide each non-matching entry,
then hide the section unless some child matched. -/
def filterSectionNode (q : List Char) (s : SectionNode) : SectionNode :=
  let es := s.entries.map (filterEntryNode q)
  { hidden := !es.any (fun e => !e.hidden), entries := es }

/-- Model of `ManPageViewer.filter_tree` (lines 113-126): normalize the query with
`strip().lower()` and recompute every visibility flag. -/
def filter_tree (query : List Char) (sections : List SectionNode) : List SectionNode :=
  sections.map (filterSectionNode (lowerL (stripL query)))

/- Catalog construction (`ManPageViewer.populate_tree`, lines 128-173).
The filesystem is abstract: `listDir` returns either the (unsorted) entry
list, or the outcome of the two exceptions `os.listdir` raises in this
program: `FileNotFoundError` or `PermissionError`. -/

/-- Outcome of one `os.listdir` call. -/
inductive ListResult where
  | ok (entries : List (List Char))
  | notFound
  | permissionDenied
deriving DecidableEq

/-- Abstract read-only filesystem. -/
structure FS where
  pathExists : List Char → Bool
  isDir : List Char → Bool
  listDir : List Char → ListResult

/-- Python `os.path.join(a, b)` for the paths this program builds. -/
def joinPath (a b : List Char) : List Char := a ++ '/' :: b

/-- Python `entry.startswith("man")`. -/
def startsWithMan (e : List Char) : Bool := startsWithL ('m' :: 'a' :: 'n' :: []) e

/-- The display label `f"{name}.{section}"`. -/
def entryLabel (name sec : List Char) : List Char := name ++ '.' :: sec

/-- The accumulating state of the scan: the `section_map` dict (insertion
order preserved, `setdefault(...).append(...)`) and the `seen` set. -/
structure ScanState where
  sectionMap : List (List Char × List (List Char))
  seen : List (List Char × List Char)
deriving DecidableEq

/-- Python `section_map.setdefault(section, []).append(lab)` on an
insertion-ordered association list. -/
def setdefaultAppend (m : List (List Char × List (List Char)))
    (k lab : List Char) : List (List Char × List (List Char)) :=
  match m with
  | [] => [(k, [lab])]
  | (k2, vs) :: rest =>
    if k2 = k then (k2, vs ++ [lab]) :: rest
    else (k2, vs) :: setdefaultAppend rest k lab

/-- Body of the inner `for file in sorted(os.listdir(full_path))` loop:
skip dotless names, dedup on `(name, section)`, append the label. -/
def processFile (sec : List Char) (st : ScanState) (file : List Char) : ScanState :=
  if hasDot file then
    let name := beforeFirstDot file
    if (name, sec) ∈ st.seen then st
    else
      { sectionMap := setdefaultAppend st.sectionMap sec (entryLabel name sec)
        seen := (name, sec) :: st.seen }
  else st

/-- Message `"PermissionError"`: the exception no handler in `populate_tree` catches. -/
def pErr : List Char := "PermissionError".toList

/-- Message `"FileNotFoundError"`: caught only around the inner section listing. -/
def fnfErr : List Char := "FileNotFoundError".toList

/-- Body of the outer `for entry in sorted(os.listdir(path))` loop: a
`man*` subdirectory is listed inside `try ... except FileNotFoundError`,
so `notFound` is swallowed but `permissionDenied` propagates. -/
def processEntry (fs : FS) (path : List Char) (st : ScanState)
    (entry : List Char) : Except (List Char) ScanState :=
  if startsWithMan entry && fs.isDir (joinPath path entry) then
    let sec := entry.drop 3
    match fs.listDir (joinPath path entry) with
    | .ok files => .ok ((sortLe lexLe files).foldl (processFile sec) st)
    | .notFound => .ok st
    | .permissionDenied => .error pErr
  else .ok st

/-- One search-path directory: skipped when `os.path.exists` is false; its
own `os.listdir` sits outside every `try`, so both exceptions propagate. -/
def processPath (fs : FS) (st : ScanState) (path : List Char) :
    Except (List Char) ScanState :=
  if fs.pathExists path then
    match fs.listDir path with
    | .ok entries => (sortLe lexLe entries).foldlM (processEntry fs path) st
    | .notFound => .error fnfErr
    | .permissionDenied => .error pErr
  else .ok st

/-- The whole scan over the `manpath` output, seeded with the empty map
and the empty `seen` set. -/
def scanPaths (fs : FS) (paths : List (List Char)) : Except (List Char) ScanState :=
  paths.foldlM (processPath fs) { sectionMap := [], seen := [] }

/-- The catalog as displayed: sections sorted with `section_sort_key`,
entries within a section sorted lexicographically. -/
def buildCatalog (fs : FS) (paths : List (List Char)) :
    Except (List Char) (List (List Char × List (List Char))) :=
  match scanPaths fs paths with
  | .error e => .error e
  | .ok st =>
    .ok ((sortLe (fun a b => skeyLe a.1 b.1) st.sectionMap).map
      (fun p => (p.1, sortLe lexLe p.2)))

/-- Number of occurrences of the entry `(name, sec)` in a section-grouped
catalog (or in the raw `section_map`). -/
def smCount (m : List (List Char × List (List Char))) (name sec : List Char) : Nat :=
  (m.map (fun p =>
    if p.1 = sec then p.2.countP (fun v => decide (v = entryLabel name sec)) else 0)).sum

/- Helper lemmas about the string primitives. -/

/-- Decoding a valid scalar value round-trips through `Char.ofNat`. -/
lemma toNat_ofNat_valid {n : Nat} (h : n.isValidChar) : (Char.ofNat n).toNat = n := by
  rw [Char.ofNat, dif_pos h]
  rfl

/-- Code point of a lowered upper-case letter. -/
lemma lowerChar_toNat_of_upper {c : Char} (h : 65 ≤ c.toNat ∧ c.toNat ≤ 90) :
    (lowerChar c).toNat = c.toNat + 32 := by
  unfold lowerChar
  rw [if_pos h]
  exact toNat_ofNat_valid (Or.inl (by omega))

/-- Lowering fixes everything outside `A`-`Z`. -/
lemma lowerChar_eq_self {c : Char} (h : ¬(65 ≤ c.toNat ∧ c.toNat ≤ 90)) :
    lowerChar c = c := by
  unfold lowerChar
  rw [if_neg h]

/-- Lowering is idempotent. -/
lemma lowerChar_idem (c : Char) : lowerChar (lowerChar c) = lowerChar c := by
  by_cases h : 65 ≤ c.toNat ∧ c.toNat ≤ 90
  · exact lowerChar_eq_self (by rw [lowerChar_toNat_of_upper h]; omega)
  · rw [lowerChar_eq_self h, lowerChar_eq_self h]

/-- Lowering never creates or destroys whitespace. -/
lemma isPySpace_lowerChar (c : Char) : isPySpace (lowerChar c) = isPySpace c := by
  by_cases h : 65 ≤ c.toNat ∧ c.toNat ≤ 90
  · have hA : ∀ m : Nat, 33 ≤ m →
        (m == 32 || m == 9 || m == 10 || m == 13 || m == 11 || m == 12) = false := by
      intro m hm
      simp only [Bool.or_eq_false_iff, beq_eq_false_iff_ne, ne_eq]
      omega
    unfold isPySpace
    rw [lowerChar_toNat_of_upper h, hA _ (by omega), hA _ (by omega)]
  · rw [lowerChar_eq_self h]

/-- Stripping commutes with lowering. -/
lemma stripL_lowerL (s : List Char) : stripL (lowerL s) = lowerL (stripL s) := by
  have hpf : isPySpace ∘ lowerChar = isPySpace := funext isPySpace_lowerChar
  simp only [stripL, lowerL, List.dropWhile_map, ← List.map_reverse, hpf]

/-- Lowering a string is idempotent. -/
lemma lowerL_idem (s : List Char) : lowerL (lowerL s) = lowerL s := by
  have h : lowerChar ∘ lowerChar = lowerChar := funext lowerChar_idem
  simp only [lowerL, List.map_map, h]

/-- The empty query is a substring of everything (Python `"" in s`). -/
lemma containsSub_nil (s : List Char) : containsSub [] s = true := by
  cases s with
  | nil => rfl
  | cons c rest => simp [containsSub, startsWithL]

/- Insertion-sort lemmas. -/

/-- Inserting is a permutation of consing. -/
lemma insertLe_perm {α : Type} (le : α → α → Bool) (a : α) (l : List α) :
    (insertLe le a l).Perm (a :: l) := by
  induction l with
  | nil => exact List.Perm.refl _
  | cons b bs ih =>
    unfold insertLe
    by_cases h : le a b = true
    · rw [if_pos h]
    · rw [if_neg h]
      exact (ih.cons b).trans (List.Perm.swap a b bs)

/-- Sorting is a permutation. -/
lemma sortLe_perm {α : Type} (le : α → α → Bool) (l : List α) :
    (sortLe le l).Perm l := by
  induction l with
  | nil => exact List.Perm.refl _
  | cons a as ih => exact (insertLe_perm le a (sortLe le as)).trans (ih.cons a)

/-- Membership is preserved by sorting. -/
lemma mem_sortLe {α : Type} {le : α → α → Bool} {l : List α} {a : α} :
    a ∈ sortLe le l ↔ a ∈ l :=
  (sortLe_perm le l).mem_iff

/-- Counting with `countP` is preserved by sorting. -/
lemma countP_sortLe {α : Type} (le : α → α → Bool) (p : α → Bool) (l : List α) :
    (sortLe le l).countP p = l.countP p :=
  (sortLe_perm le l).countP_eq p

/-- Two comparison functions that agree on the list sort it identically. -/
lemma insertLe_congr {α : Type} (le1 le2 : α → α → Bool) (a : α) (l : List α)
    (hag : ∀ b ∈ l, le1 a b = le2 a b) :
    insertLe le1 a l = insertLe le2 a l := by
  induction l with
  | nil => rfl
  | cons b bs ih =>
    unfold insertLe
    rw [hag b (by simp)]
    by_cases h : le2 a b = true
    · rw [if_pos h, if_pos h]
    · rw [if_neg h, if_neg h, ih (fun x hx => hag x (by simp [hx]))]

/-- Sorting is determined by the comparisons between list members. -/
lemma sortLe_congr {α : Type} (le1 le2 : α → α → Bool) (l : List α)
    (hag : ∀ a ∈ l, ∀ b ∈ l, le1 a b = le2 a b) :
    sortLe le1 l = sortLe le2 l := by
  induction l with
  | nil => rfl
  | cons a as ih =>
    unfold sortLe
    rw [ih (fun x hx y hy => hag x (by simp [hx]) y (by simp [hy]))]
    exact insertLe_congr le1 le2 a (sortLe le2 as)
      (fun b hb => hag a (by simp) b (by simp [mem_sortLe.mp hb]))

/- Splitting at the last dot. -/

/-- Splitting with `takeWhile` and `dropWhile` across an append whose left part wholly
satisfies the predicate and whose right part starts with a failure. -/
lemma takeWhile_dropWhile_append {p : Char → Bool} :
    ∀ (l1 : List Char), (∀ x ∈ l1, p x = true) → ∀ (c : Char), p c = false →
      ∀ (l2 : List Char),
        (l1 ++ c :: l2).takeWhile p = l1 ∧ (l1 ++ c :: l2).dropWhile p = c :: l2 := by
  intro l1 h1 c hc l2
  induction l1 with
  | nil => simp [List.takeWhile, List.dropWhile, hc]
  | cons a as ih =>
    have ha : p a = true := h1 a (by simp)
    have := ih (fun x hx => h1 x (by simp [hx]))
    simp [List.takeWhile, List.dropWhile, ha, this.1, this.2]

/-- Splitting `name ++ "." ++ sec` at the last dot recovers `(name, sec)`
whenever the section identifier itself contains no dot. -/
lemma rsplitLast_entryLabel (name sec : List Char) (h : '.' ∉ sec) :
    rsplitLast (entryLabel name sec) = (name, sec) := by
  have hsec : ∀ x ∈ sec.reverse, (x != '.') = true := by
    intro x hx
    simp only [bne_iff_ne, ne_eq]
    intro hEq
    exact h (hEq ▸ List.mem_reverse.mp hx)
  have hdot : (('.' : Char) != '.') = false := by simp
  have hsplit := takeWhile_dropWhile_append sec.reverse hsec '.' hdot name.reverse
  unfold rsplitLast entryLabel
  rw [List.reverse_append, List.reverse_cons]
  simp only [List.append_assoc, List.cons_append, List.nil_append] at hsplit ⊢
  rw [hsplit.1, hsplit.2]
  simp

/- Characterization of the greedy search. -/

/-- A non-empty pattern never occurs in the empty document. -/
lemma ciStartsWith_nil {q : List Char} (hq : q ≠ []) : ciStartsWith q [] = false := by
  cases q with
  | nil => exact absurd rfl hq
  | cons a as => rfl

/-- Every span the search reports lies at or after the start position and
has the query's length. -/
lemma findCIAux_mem (q : List Char) :
    ∀ (fuel : Nat) (doc : List Char) (pos p l : Nat),
      (p, l) ∈ findCIAux q fuel doc pos → pos ≤ p ∧ l = q.length := by
  intro fuel
  induction fuel with
  | zero => intro doc pos p l h; simp [findCIAux] at h
  | succ n ih =>
    intro doc pos p l h
    cases doc with
    | nil => simp [findCIAux] at h
    | cons c rest =>
      by_cases hc : ciStartsWith q (c :: rest) = true
      · rw [findCIAux, if_pos hc] at h
        rcases List.mem_cons.mp h with h1 | h2
        · rw [Prod.mk.injEq] at h1
          exact ⟨by omega, h1.2⟩
        · have := ih _ _ p l h2
          exact ⟨by omega, this.2⟩
      · rw [findCIAux, if_neg hc] at h
        have := ih _ _ p l h
        exact ⟨by omega, this.2⟩

/-- Soundness: every reported span is a case-insensitive occurrence of the
query (positions are relative to `pos`). -/
lemma findCIAux_sound (q : List Char) (hq : q ≠ []) :
    ∀ (fuel : Nat) (doc : List Char) (pos p l : Nat),
      (p, l) ∈ findCIAux q fuel doc pos → ciOccursAt q doc (p - pos) = true := by
  have hql : 1 ≤ q.length := by
    cases q with
    | nil => exact absurd rfl hq
    | cons a as => simp
  intro fuel
  induction fuel with
  | zero => intro doc pos p l h; simp [findCIAux] at h
  | succ n ih =>
    intro doc pos p l h
    cases doc with
    | nil => simp [findCIAux] at h
    | cons c rest =>
      by_cases hc : ciStartsWith q (c :: rest) = true
      · rw [findCIAux, if_pos hc] at h
        rcases List.mem_cons.mp h with h1 | h2
        · rw [Prod.mk.injEq] at h1
          rw [h1.1]
          simpa [ciOccursAt] using hc
        · have hb := findCIAux_mem q n _ _ p l h2
          have hocc := ih _ _ p l h2
          unfold ciOccursAt at hocc ⊢
          rw [List.drop_drop] at hocc
          have hk : p - pos = (q.length - 1 + (p - (pos + q.length))) + 1 := by omega
          rw [hk, List.drop_succ_cons]
          exact hocc
      · rw [findCIAux, if_neg hc] at h
        have hb := findCIAux_mem q n _ _ p l h
        have hocc := ih _ _ p l h
        have hk : p - (pos + 1) + 1 = p - pos := by omega
        unfold ciOccursAt at hocc ⊢
        rw [← hk, List.drop_succ_cons]
        exact hocc

/-- The reported spans come in document order and never overlap. -/
lemma findCIAux_ordered (q : List Char) :
    ∀ (fuel : Nat) (doc : List Char) (pos : Nat),
      spansOrdered (findCIAux q fuel doc pos) = true := by
  intro fuel
  induction fuel with
  | zero => intro doc pos; simp [findCIAux, spansOrdered]
  | succ n ih =>
    intro doc pos
    cases doc with
    | nil => simp [findCIAux, spansOrdered]
    | cons c rest =>
      by_cases hc : ciStartsWith q (c :: rest) = true
      · rw [findCIAux, if_pos hc]
        cases hT : findCIAux q n (rest.drop (q.length - 1)) (pos + q.length) with
        | nil => simp [spansOrdered]
        | cons x t =>
          obtain ⟨p2, l2⟩ := x
          have hmem : (p2, l2) ∈ findCIAux q n (rest.drop (q.length - 1)) (pos + q.length) := by
            rw [hT]; simp
          have hb := findCIAux_mem q n _ _ p2 l2 hmem
          have hord := ih (rest.drop (q.length - 1)) (pos + q.length)
          rw [hT] at hord
          unfold spansOrdered
          rw [hord]
          simp only [Bool.and_true, decide_eq_true_eq]
          omega
      · rw [findCIAux, if_neg hc]
        exact ih rest (pos + 1)

/-- Completeness (maximality): with enough fuel, every occurrence of the
query overlaps some reported span — no further non-overlapping match could
be added. -/
lemma findCIAux_complete (q : List Char) (hq : q ≠ []) :
    ∀ (fuel : Nat) (doc : List Char) (pos k : Nat), doc.length ≤ fuel →
      ciOccursAt q doc k = true →
      ∃ p l, (p, l) ∈ findCIAux q fuel doc pos ∧ p ≤ pos + k ∧ pos + k < p + l := by
  have hql : 1 ≤ q.length := by
    cases q with
    | nil => exact absurd rfl hq
    | cons a as => simp
  intro fuel
  induction fuel with
  | zero =>
    intro doc pos k hlen hocc
    have hd : doc = [] := List.length_eq_zero.mp (by omega)
    rw [hd] at hocc
    unfold ciOccursAt at hocc
    rw [List.drop_nil, ciStartsWith_nil hq] at hocc
    exact absurd hocc (by simp)
  | succ n ih =>
    intro doc pos k hlen hocc
    cases doc with
    | nil =>
      unfold ciOccursAt at hocc
      rw [List.drop_nil, ciStartsWith_nil hq] at hocc
      exact absurd hocc (by simp)
    | cons c rest =>
      have hrest : rest.length ≤ n := by
        simp only [List.length_cons] at hlen
        omega
      by_cases hc : ciStartsWith q (c :: rest) = true
      · rw [findCIAux, if_pos hc]
        by_cases hk : k < q.length
        · exact ⟨pos, q.length, by simp, by omega, by omega⟩
        · obtain ⟨k2, rfl⟩ : ∃ k2, k = k2 + 1 := ⟨k - 1, by omega⟩
          have hocc2 : ciOccursAt q (rest.drop (q.length - 1)) (k2 + 1 - q.length) = true := by
            unfold ciOccursAt at hocc ⊢
            rw [List.drop_succ_cons] at hocc
            rw [List.drop_drop]
            have hk4 : q.length - 1 + (k2 + 1 - q.length) = k2 := by omega
            rw [hk4]
            exact hocc
          have hlen2 : (rest.drop (q.length - 1)).length ≤ n := by
            rw [List.length_drop]
            omega
          obtain ⟨p, l, hmem, h1, h2⟩ := ih _ (pos + q.length) (k2 + 1 - q.length) hlen2 hocc2
          exact ⟨p, l, by simp [hmem], by omega, by omega⟩
      · rw [findCIAux, if_neg hc]
        by_cases hk : k = 0
        · rw [hk] at hocc
          unfold ciOccursAt at hocc
          rw [List.drop_zero] at hocc
          exact absurd hocc hc
        · have hocc2 : ciOccursAt q rest (k - 1) = true := by
            unfold ciOccursAt at hocc ⊢
            have hk3 : k = (k - 1) + 1 := by omega
            rw [hk3, List.drop_succ_cons] at hocc
            exact hocc
          obtain ⟨p, l, hmem, h1, h2⟩ := ih rest (pos + 1) (k - 1) hrest hocc2
          exact ⟨p, l, hmem, by omega, by omega⟩

/- The deduplication invariant of the scan. -/

/-- Unfolding `smCount` on a cons cell. -/
lemma smCount_cons (k2 : List Char) (vs : List (List Char))
    (rest : List (List Char × List (List Char))) (name sec : List Char) :
    smCount ((k2, vs) :: rest) name sec =
      (if k2 = sec then vs.countP (fun v => decide (v = entryLabel name sec)) else 0) +
        smCount rest name sec := by
  unfold smCount
  simp

/-- Appending one label through `setdefault` adds exactly one occurrence of
that label under that key and nothing else. -/
lemma smCount_setdefaultAppend
    (m : List (List Char × List (List Char))) (k lab name sec : List Char) :
    smCount (setdefaultAppend m k lab) name sec =
      smCount m name sec +
        (if k = sec ∧ lab = entryLabel name sec then 1 else 0) := by
  induction m with
  | nil =>
    unfold setdefaultAppend
    rw [smCount_cons]
    unfold smCount
    simp only [List.map_nil, List.sum_nil, Nat.add_zero, Nat.zero_add]
    by_cases h1 : k = sec
    · by_cases h2 : lab = entryLabel name sec <;>
        simp [h1, h2, List.countP_cons, List.countP_nil]
    · simp [h1]
  | cons hd rest ih =>
    obtain ⟨k2, vs⟩ := hd
    unfold setdefaultAppend
    by_cases hk : k2 = k
    · rw [if_pos hk, smCount_cons, smCount_cons, List.countP_append]
      by_cases h1 : k2 = sec
      · subst hk
        by_cases h2 : lab = entryLabel name sec
        · simp only [h1, h2, List.countP_cons, List.countP_nil]
          simp
          omega
        · simp [h1, h2, List.countP_cons, List.countP_nil]
      · subst hk
        simp only [if_neg h1]
        have : ¬(k2 = sec ∧ lab = entryLabel name sec) := fun hc => h1 hc.1
        simp [this]
    · rw [if_neg hk, smCount_cons, smCount_cons, ih]
      omega

/-- Labels with the same section determine the name. -/
lemma entryLabel_inj {a b sec : List Char} (h : entryLabel a sec = entryLabel b sec) :
    a = b := by
  unfold entryLabel at h
  have hl : a.length = b.length := by
    have := congrArg List.length h
    simp only [List.length_append, List.length_cons] at this
    omega
  exact (List.append_inj h hl).1

/-- The scan invariant: every `(name, section)` pair occurs at most once in
the accumulated map, and an occurrence implies membership in `seen`. -/
def scanInv (st : ScanState) : Prop :=
  ∀ name sec : List Char,
    smCount st.sectionMap name sec ≤ 1 ∧
      (1 ≤ smCount st.sectionMap name sec → (name, sec) ∈ st.seen)

/-- The empty scan state satisfies the invariant. -/
lemma scanInv_init : scanInv { sectionMap := [], seen := [] } := by
  intro name sec
  refine ⟨by simp [smCount], ?_⟩
  intro h
  simp [smCount] at h

/-- One file step preserves the invariant. -/
lemma processFile_inv (sec file : List Char) (st : ScanState) (h : scanInv st) :
    scanInv (processFile sec st file) := by
  unfold processFile
  by_cases hd : hasDot file = true
  · rw [if_pos hd]
    by_cases hseen : (beforeFirstDot file, sec) ∈ st.seen
    · rw [if_pos hseen]
      exact h
    · rw [if_neg hseen]
      intro name2 sec2
      have hcount := smCount_setdefaultAppend st.sectionMap sec
        (entryLabel (beforeFirstDot file) sec) name2 sec2
      by_cases hcond : sec = sec2 ∧
          entryLabel (beforeFirstDot file) sec = entryLabel name2 sec2
      · obtain ⟨hsec, hlabEq⟩ := hcond
        subst hsec
        have hname : beforeFirstDot file = name2 := entryLabel_inj hlabEq
        have hold : ¬(1 ≤ smCount st.sectionMap name2 sec) := by
          intro h1
          exact hseen (hname ▸ (h name2 sec).2 h1)
        have hpos : sec = sec ∧
            entryLabel (beforeFirstDot file) sec = entryLabel name2 sec := ⟨rfl, hlabEq⟩
        constructor
        · rw [hcount, if_pos hpos]
          omega
        · intro _
          rw [← hname]
          exact List.mem_cons_self _ _
      · constructor
        · simp only [hcount, if_neg hcond]
          have := (h name2 sec2).1
          omega
        · intro h1
          simp only [hcount, if_neg hcond] at h1
          exact List.mem_cons_of_mem _ ((h name2 sec2).2 (by omega))
  · rw [if_neg hd]
    exact h

/-- The inner file loop preserves the invariant. -/
lemma foldl_processFile_inv (sec : List Char) (files : List (List Char))
    (st : ScanState) (h : scanInv st) :
    scanInv (files.foldl (processFile sec) st) := by
  induction files generalizing st with
  | nil => exact h
  | cons f fs ih => exact ih _ (processFile_inv sec f st h)

/-- Monadic fold over `Except` preserves any invariant each step preserves. -/
lemma foldlM_ok_inv {ε σ α : Type} (P : σ → Prop) (f : σ → α → Except ε σ)
    (hf : ∀ s a s2, f s a = Except.ok s2 → P s → P s2) :
    ∀ (l : List α) (s s2 : σ), List.foldlM f s l = Except.ok s2 → P s → P s2 := by
  intro l
  induction l with
  | nil =>
    intro s s2 h hp
    simp only [List.foldlM_nil, pure] at h
    injection h with h
    rw [← h]
    exact hp
  | cons a as ih =>
    intro s s2 h hp
    rw [List.foldlM_cons] at h
    cases hfa : f s a with
    | error e =>
      rw [hfa] at h
      simp only [bind, Except.bind] at h
      exact absurd h (by simp)
    | ok s3 =>
      rw [hfa] at h
      simp only [bind, Except.bind] at h
      exact ih s3 s2 h (hf s a s3 hfa hp)

/-- One `man*` subdirectory step preserves the invariant. -/
lemma processEntry_inv (fs : FS) (path : List Char) (st : ScanState)
    (entry : List Char) (st2 : ScanState)
    (h : processEntry fs path st entry = Except.ok st2) (hst : scanInv st) :
    scanInv st2 := by
  unfold processEntry at h
  by_cases hcond : (startsWithMan entry && fs.isDir (joinPath path entry)) = true
  · rw [if_pos hcond] at h
    cases hld : fs.listDir (joinPath path entry) with
    | ok files =>
      rw [hld] at h
      injection h with h
      rw [← h]
      exact foldl_processFile_inv _ _ _ hst
    | notFound =>
      rw [hld] at h
      injection h with h
      rw [← h]
      exact hst
    | permissionDenied =>
      rw [hld] at h
      exact absurd h (by simp)
  · rw [if_neg hcond] at h
    injection h with h
    rw [← h]
    exact hst

/-- One search-path directory preserves the invariant. -/
lemma processPath_inv (fs : FS) (path : List Char) (st st2 : ScanState)
    (h : processPath fs st path = Except.ok st2) (hst : scanInv st) :
    scanInv st2 := by
  unfold processPath at h
  by_cases hex : fs.pathExists path = true
  · rw [if_pos hex] at h
    cases hld : fs.listDir path with
    | ok entries =>
      rw [hld] at h
      exact foldlM_ok_inv scanInv _ (fun s a s3 ha => processEntry_inv fs path s a s3 ha)
        _ _ _ h hst
    | notFound => rw [hld] at h; exact absurd h (by simp)
    | permissionDenied => rw [hld] at h; exact absurd h (by simp)
  · rw [if_neg hex] at h
    injection h with h
    rw [← h]
    exact hst

/-- A completed scan satisfies the invariant. -/
lemma scanPaths_inv (fs : FS) (paths : List (List Char)) (st2 : ScanState)
    (h : scanPaths fs paths = Except.ok st2) : scanInv st2 :=
  foldlM_ok_inv scanInv _ (fun s a s3 ha => processPath_inv fs a s s3 ha)
    paths _ _ h scanInv_init

/-- Sorting the catalog does not change any entry count. -/
lemma smCount_sorted (m : List (List Char × List (List Char))) (name sec : List Char) :
    smCount ((sortLe (fun a b => skeyLe a.1 b.1) m).map
        (fun p => (p.1, sortLe lexLe p.2))) name sec =
      smCount m name sec := by
  unfold smCount
  rw [List.map_map]
  have hfun : ((fun p : List Char × List (List Char) =>
      if p.1 = sec then p.2.countP (fun v => decide (v = entryLabel name sec)) else 0) ∘
      (fun p => (p.1, sortLe lexLe p.2))) =
      (fun p : List Char × List (List Char) =>
        if p.1 = sec then p.2.countP (fun v => decide (v = entryLabel name sec)) else 0) := by
    funext p
    by_cases h : p.1 = sec <;> simp [Function.comp, h, countP_sortLe]
  rw [hfun]
  exact List.Perm.sum_eq (List.Perm.map _ (sortLe_perm _ m))

/-- Focusing never changes the match list itself. -/
lemma focus_match_searchMatches (st : ViewerState) (i : Int) :
    (focus_match st i).searchMatches = st.searchMatches := by
  unfold focus_match
  by_cases h : st.searchMatches.isEmpty = true <;> simp [h]

/-- Focusing never changes the document. -/
lemma focus_match_textArea (st : ViewerState) (i : Int) :
    (focus_match st i).textArea = st.textArea := by
  unfold focus_match
  by_cases h : st.searchMatches.isEmpty = true <;> simp [h]

/- Concrete renderers and states used by witnesses and counterexamples. -/

/-- A renderer whose invocation throws. -/
def renderRaise : List Char → List Char → RenderExec :=
  fun _ _ => RenderExec.raised "boom".toList

/-- A failing renderer: `man 1 doesnotexist | col -bx` completes with a
non-zero exit code and empty stdout, and `subprocess.run` (no `check=True`)
returns normally. -/
def renderFail : List Char → List Char → RenderExec :=
  fun _ _ => RenderExec.completed 1 []

/-- A successful renderer. -/
def renderOk : List Char → List Char → RenderExec :=
  fun _ _ => RenderExec.completed 0 ("hello".toList)

/-- A viewer state with an active search (one match, label "1 of 1"). -/
def stWithMatches : ViewerState :=
  { initialViewer with
    searchMatches := [(0, 1)]
    currentMatchIndex := 0
    matchLabel := "1 of 1" }

/-- C1 (claim as stated is false on the code): for the selection
("doesnotexist","1") the renderer invocation fails with exit code 1, yet
the displayed text is the captured stdout (empty), not the
"Error loading man page: " placeholder. -/
theorem C1_counterexample :
    renderFail ("doesnotexist".toList) ("1".toList) = RenderExec.completed 1 [] ∧
    (1 : Int) ≠ 0 ∧
    (display_man renderFail initialViewer ("doesnotexist.1".toList)).textArea.text = [] ∧
    startsWithL errStr
      (display_man renderFail initialViewer ("doesnotexist.1".toList)).textArea.text
      = false := by
  decide

/-- C1 (amended): only a *thrown* renderer invocation produces the
placeholder, whose text is exactly `"Error loading man page: " ++ details`;
a completed invocation — whatever its exit code — displays its captured
stdout; `display_man` is total (the `except` handler catches every
exception), and the tree and filter state are never touched. -/
theorem C1_amended :
    (∀ (render : List Char → List Char → RenderExec) (st : ViewerState)
        (lab name sec msg : List Char),
        selectEntry lab = some (name, sec) → render name sec = RenderExec.raised msg →
        (display_man render st lab).textArea.text = errStr ++ msg) ∧
    (∀ (render : List Char → List Char → RenderExec) (st : ViewerState)
        (lab name sec out : List Char) (code : Int),
        selectEntry lab = some (name, sec) →
        render name sec = RenderExec.completed code out →
        (display_man render st lab).textArea.text = out) ∧
    (∀ (render : List Char → List Char → RenderExec) (st : ViewerState) (lab : List Char),
        (display_man render st lab).sections = st.sections ∧
        (display_man render st lab).topSearchText = st.topSearchText) := by
  refine ⟨?_, ?_, ?_⟩
  · intro render st lab name sec msg hsel hr
    simp [display_man, hsel, hr]
  · intro render st lab name sec out code hsel hr
    simp [display_man, hsel, hr]
  · intro render st lab
    cases hsel : selectEntry lab with
    | none => simp [display_man, hsel]
    | some p =>
      obtain ⟨name, sec⟩ := p
      cases hr : render name sec <;> simp [display_man, hsel, hr]

/-- C1 witness at a concrete input. -/
theorem C1_witness :
    (display_man renderRaise initialViewer ("ls.1".toList)).textArea.text =
      errStr ++ "boom".toList :=
  C1_amended.1 renderRaise initialViewer ("ls.1".toList) ("ls".toList) ("1".toList)
    ("boom".toList) (by decide) rfl

/-- C2 (claim as stated is false on the code): after loading a new entry
the old Match Set, current index and "1 of 1" status label all survive —
`display_man` only calls `setPlainText` and never resets the search state. -/
theorem C2_counterexample :
    (display_man renderOk stWithMatches ("ls.1".toList)).searchMatches = [(0, 1)] ∧
    (display_man renderOk stWithMatches ("ls.1".toList)).matchLabel = "1 of 1" ∧
    (display_man renderOk stWithMatches ("ls.1".toList)).currentMatchIndex = 0 ∧
    ([(0, 1)] : List (Nat × Nat)) ≠ [] ∧
    ("1 of 1" : String) ≠ "" := by
  decide

/-- C2 (amended): loading an entry replaces the displayed document in full
(see `C1_amended` for the text) but leaves the Match Set, the current-match
cursor and the "i of N" status label exactly as they were; they are only
reset by the next search. -/
theorem C2_amended :
    ∀ (render : List Char → List Char → RenderExec) (st : ViewerState) (lab : List Char),
      (display_man render st lab).searchMatches = st.searchMatches ∧
      (display_man render st lab).currentMatchIndex = st.currentMatchIndex ∧
      (display_man render st lab).matchLabel = st.matchLabel := by
  intro render st lab
  cases hsel : selectEntry lab with
  | none => simp [display_man, hsel]
  | some p =>
    obtain ⟨name, sec⟩ := p
    cases hr : render name sec <;> simp [display_man, hsel, hr]

/-- C9 (confirmed): a label without a dot makes selection a no-op (not an
error); a label with a dot is split at the *last* dot; and label
construction round-trips: for any name (dots allowed) and any dot-free
section identifier, selecting the label `name ++ "." ++ sec` yields exactly
`(name, sec)`. -/
theorem C9_selection :
    (∀ (render : List Char → List Char → RenderExec) (st : ViewerState) (lab : List Char),
        hasDot lab = false → display_man render st lab = st) ∧
    (∀ lab : List Char, hasDot lab = true → selectEntry lab = some (rsplitLast lab)) ∧
    (∀ name sec : List Char, '.' ∉ sec →
        selectEntry (entryLabel name sec) = some (name, sec)) := by
  refine ⟨?_, ?_, ?_⟩
  · intro render st lab h
    simp [display_man, selectEntry, h]
  · intro lab h
    simp [selectEntry, h]
  · intro name sec h
    have hd : hasDot (entryLabel name sec) = true := by
      unfold hasDot entryLabel
      simp
    simp only [selectEntry, hd, if_true]
    exact congrArg some (rsplitLast_entryLabel name sec h)

/-- C9 witness: the name itself contains a dot and still round-trips. -/
theorem C9_witness :
    selectEntry (entryLabel ("a.b".toList) ("1".toList)) =
      some ("a.b".toList, "1".toList) :=
  C9_selection.2.2 ("a.b".toList) ("1".toList) (by decide)

/-- C10 (confirmed): the highlight query is stripped before anything else:
a whitespace-only query leaves the whole state untouched, and any other
query searches for its stripped form, not the raw text. -/
theorem C10_trim :
    (∀ st : ViewerState, stripL st.manSearchText = [] → highlight_matches st = st) ∧
    (∀ st : ViewerState, stripL st.manSearchText ≠ [] →
        (highlight_matches st).searchMatches =
          findCI (stripL st.manSearchText) st.textArea.text 0) := by
  constructor
  · intro st h
    simp [highlight_matches, h]
  · intro st h
    have hne : (stripL st.manSearchText).isEmpty = false := by
      cases hq : stripL st.manSearchText with
      | nil => exact absurd hq h
      | cons c cs => rfl
    simp only [highlight_matches, hne, Bool.false_eq_true, if_false]
    by_cases hms : (findCI (stripL st.manSearchText) st.textArea.text 0).isEmpty = true
    · rw [if_pos hms]
    · rw [if_neg hms, focus_match_searchMatches]

/-- C10 witness: `search("   ")` is a no-op; `search("  foo ")` finds the
occurrences of `"foo"`. -/
theorem C10_witness :
    highlight_matches { initialViewer with manSearchText := "   ".toList } =
      { initialViewer with manSearchText := "   ".toList } ∧
    (highlight_matches
        { initialViewer with
          manSearchText := "  foo ".toList
          textArea := { text := "foo x foo".toList, highlights := [] } }).searchMatches
      = [(0, 3), (6, 3)] := by
  constructor
  · exact C10_trim.1 _ (by decide)
  · rw [C10_trim.2 _ (by decide)]
    decide

/-- Wrapped index and full effect of `focus_match` on a non-empty match list. -/
lemma focus_match_spec (st : ViewerState) (index : Int) (h : st.searchMatches ≠ []) :
    0 ≤ index % (st.searchMatches.length : Int) ∧
    index % (st.searchMatches.length : Int) < (st.searchMatches.length : Int) ∧
    focus_match st index =
      { st with
        selectedMatch :=
          st.searchMatches[(index % (st.searchMatches.length : Int)).toNat]?
        currentMatchIndex := index % (st.searchMatches.length : Int)
        matchLabel := toString (index % (st.searchMatches.length : Int) + 1) ++ " of " ++
          toString st.searchMatches.length } := by
  have hlen : 0 < st.searchMatches.length := List.length_pos.mpr h
  have hne : st.searchMatches.isEmpty = false := by
    cases hq : st.searchMatches with
    | nil => exact absurd hq h
    | cons a l => rfl
  refine ⟨Int.emod_nonneg index (by omega), Int.emod_lt_of_pos index (by omega), ?_⟩
  simp only [focus_match, hne, Bool.false_eq_true, if_false]

/-- C3 (claim as stated is false on the code): `QTextDocument.find` with
default flags is case-insensitive, so searching `"foo"` in the document
`"Foo"` yields one match even though the case-sensitive search the claim
describes yields none. -/
theorem C3_counterexample :
    (highlight_matches { initialViewer with
        manSearchText := "foo".toList
        textArea := { text := "Foo".toList, highlights := [] } }).searchMatches
      = [(0, 3)] ∧
    csFind ("foo".toList) ("Foo".toList) 0 = [] ∧
    ([(0, 3)] : List (Nat × Nat)) ≠ [] := by
  decide

/-- C3 (amended): for a non-empty (stripped) query, `search` discards the
previous Match Set and all prior highlight formatting, stores exactly the
greedy non-overlapping **case-insensitive** literal occurrences of the
query (no regex interpretation) in document order as the new Match Set,
highlights exactly those spans, leaves the document text untouched, and
focuses match 0 (label "1 of N") whenever the Match Set is non-empty.
The second half characterizes the search: every reported span is an
occurrence of query length, spans are in document order and
non-overlapping, and every occurrence in the document overlaps a reported
span (none could be added). -/
theorem C3_amended :
    (∀ st : ViewerState, stripL st.manSearchText ≠ [] →
      (highlight_matches st).searchMatches =
          findCI (stripL st.manSearchText) st.textArea.text 0 ∧
      (highlight_matches st).textArea.highlights =
          findCI (stripL st.manSearchText) st.textArea.text 0 ∧
      (highlight_matches st).textArea.text = st.textArea.text ∧
      (findCI (stripL st.manSearchText) st.textArea.text 0 ≠ [] →
        (highlight_matches st).currentMatchIndex = 0 ∧
        (highlight_matches st).selectedMatch =
          (findCI (stripL st.manSearchText) st.textArea.text 0)[0]? ∧
        (highlight_matches st).matchLabel =
          "1 of " ++ toString (findCI (stripL st.manSearchText) st.textArea.text 0).length) ∧
      (findCI (stripL st.manSearchText) st.textArea.text 0 = [] →
        (highlight_matches st).currentMatchIndex = -1)) ∧
    (∀ q doc : List Char, q ≠ [] →
      (∀ p l : Nat, (p, l) ∈ findCI q doc 0 →
        l = q.length ∧ ciOccursAt q doc p = true) ∧
      spansOrdered (findCI q doc 0) = true ∧
      (∀ k : Nat, ciOccursAt q doc k = true →
        ∃ p l : Nat, (p, l) ∈ findCI q doc 0 ∧ p ≤ k ∧ k < p + l)) := by
  constructor
  · intro st h
    have hne : (stripL st.manSearchText).isEmpty = false := by
      cases hq : stripL st.manSearchText with
      | nil => exact absurd hq h
      | cons c cs => rfl
    simp only [highlight_matches, hne, Bool.false_eq_true, if_false]
    by_cases hempty : (findCI (stripL st.manSearchText) st.textArea.text 0).isEmpty = true
    · rw [if_pos hempty]
      refine ⟨rfl, rfl, rfl, ?_, fun _ => rfl⟩
      intro hms2
      exact absurd (List.isEmpty_iff.mp hempty) hms2
    · rw [if_neg hempty]
      have hmsne : findCI (stripL st.manSearchText) st.textArea.text 0 ≠ [] := by
        intro hnil
        rw [hnil] at hempty
        exact hempty rfl
      obtain ⟨h0, hlt, heq⟩ := focus_match_spec
        { st with
          textArea :=
            { text := st.textArea.text
              highlights := findCI (stripL st.manSearchText) st.textArea.text 0 }
          searchMatches := findCI (stripL st.manSearchText) st.textArea.text 0
          currentMatchIndex := -1 } 0 hmsne
      rw [heq]
      refine ⟨rfl, rfl, rfl, ?_, ?_⟩
      · intro _
        refine ⟨by rw [Int.zero_emod], ?_, ?_⟩
        · rw [Int.zero_emod]
          rfl
        · rw [Int.zero_emod]
          rfl
      · intro hnil
        exact absurd hnil hmsne
  · intro q doc hq
    refine ⟨?_, findCIAux_ordered q doc.length doc 0, ?_⟩
    · intro p l hmem
      have h1 := findCIAux_mem q doc.length doc 0 p l hmem
      have h2 := findCIAux_sound q hq doc.length doc 0 p l hmem
      rw [Nat.sub_zero] at h2
      exact ⟨h1.2, h2⟩
    · intro k hk
      obtain ⟨p, l, hm, h1, h2⟩ :=
        findCIAux_complete q hq doc.length doc 0 k (Nat.le_refl _) hk
      exact ⟨p, l, hm, by omega, by omega⟩

/-- C3 witness: searching "fo" in "fo Fo" stores the two case-insensitive
matches in document order. -/
theorem C3_witness :
    (highlight_matches { initialViewer with
        manSearchText := "fo".toList
        textArea := { text := "fo Fo".toList, highlights := [] } }).searchMatches
      = findCI ("fo".toList) ("fo Fo".toList) 0 ∧
    spansOrdered (findCI ("fo".toList) ("fo Fo".toList) 0) = true ∧
    findCI ("fo".toList) ("fo Fo".toList) 0 = [(0, 2), (3, 2)] := by
  refine ⟨?_, ?_, by decide⟩
  · exact (C3_amended.1 _ (by decide)).1
  · exact ((C3_amended.2 ("fo".toList) ("fo Fo".toList) (by decide)).2).1

/-- A section's visibility test over the filtered entries equals the
substring test over the original entries. -/
lemma any_not_hidden_filterEntry (q : List Char) (es : List EntryNode) :
    (es.map (filterEntryNode q)).any (fun e => !e.hidden) =
      es.any (fun e => containsSub q (lowerL e.label)) := by
  rw [List.any_map]
  congr 1
  funext e
  simp [filterEntryNode, Function.comp]

/-- C6 (confirmed): `applyFilter` normalizes the query with
`strip().lower()`; an entry is visible iff the normalized query occurs in
its lowercased label; a section is visible iff some child entry is
visible; a blank (stripped-empty) query shows every entry; and the filter
is case-insensitive (lowering the query never changes the result). -/
theorem C6_filter :
    (∀ (query : List Char) (sections : List SectionNode),
        filter_tree query sections = sections.map (fun s =>
          { hidden := !s.entries.any (fun e =>
              containsSub (lowerL (stripL query)) (lowerL e.label))
            entries := s.entries.map (fun e =>
              { label := e.label
                hidden := !containsSub (lowerL (stripL query)) (lowerL e.label) }) })) ∧
    (∀ (query : List Char) (sections : List SectionNode) (s : SectionNode),
        s ∈ filter_tree query sections →
        (s.hidden = false ↔ ∃ e ∈ s.entries, e.hidden = false)) ∧
    (∀ (query : List Char) (sections : List SectionNode),
        stripL query = [] →
        ∀ s ∈ filter_tree query sections, ∀ e ∈ s.entries, e.hidden = false) ∧
    (∀ (query : List Char) (sections : List SectionNode),
        filter_tree (lowerL query) sections = filter_tree query sections) := by
  refine ⟨?_, ?_, ?_, ?_⟩
  · intro query sections
    unfold filter_tree
    congr 1
    funext s
    unfold filterSectionNode
    dsimp only
    rw [any_not_hidden_filterEntry]
    congr 1
  · intro query sections s hs
    unfold filter_tree at hs
    obtain ⟨s0, hs0, rfl⟩ := List.mem_map.mp hs
    simp [filterSectionNode, filterEntryNode, List.any_eq_true]
  · intro query sections hq s hs e he
    obtain ⟨s0, hs0, rfl⟩ := List.mem_map.mp hs
    simp only [filterSectionNode] at he
    obtain ⟨e0, he0, rfl⟩ := List.mem_map.mp he
    show (!containsSub (lowerL (stripL query)) (lowerL e0.label)) = false
    have hc : containsSub (lowerL (stripL query)) (lowerL e0.label) = true := by
      rw [hq]
      exact containsSub_nil _
    rw [hc]
    rfl
  · intro query sections
    unfold filter_tree
    rw [stripL_lowerL, lowerL_idem]

/-- The three-section example tree used by the C6 witness. -/
def secsEx : List SectionNode :=
  [{ hidden := false
     entries := [{ label := "ls.1".toList, hidden := false },
                 { label := "cat.1".toList, hidden := false }] },
   { hidden := false
     entries := [{ label := "lsblk.8".toList, hidden := false }] }]

/-- C6 witness: query "ls" shows `ls.1` and `lsblk.8` and hides `cat.1`;
"LS" behaves identically; a visible section has a visible child. -/
theorem C6_witness :
    filter_tree ("ls".toList) secsEx =
      [{ hidden := false
         entries := [{ label := "ls.1".toList, hidden := false },
                     { label := "cat.1".toList, hidden := true }] },
       { hidden := false
         entries := [{ label := "lsblk.8".toList, hidden := false }] }] ∧
    filter_tree ("ls".toList) secsEx = filter_tree ("LS".toList) secsEx ∧
    (({ hidden := false
        entries := [{ label := "ls.1".toList, hidden := false },
                    { label := "cat.1".toList, hidden := true }] } : SectionNode).hidden
        = false ↔
      ∃ e ∈ [({ label := "ls.1".toList, hidden := false } : EntryNode),
             { label := "cat.1".toList, hidden := true }], e.hidden = false) := by
  refine ⟨by decide, ?_, ?_⟩
  · exact (C6_filter.2.2.2 ("LS".toList) secsEx).symm
  · exact C6_filter.2.1 ("ls".toList) secsEx _ (by decide)

/-- Re-indexing `focus_match` by any congruent index gives the same state. -/
lemma focus_match_congr (st : ViewerState) {a b : Int}
    (h : a % (st.searchMatches.length : Int) = b % (st.searchMatches.length : Int)) :
    focus_match st a = focus_match st b := by
  unfold focus_match
  rw [h]

/-- C7 (confirmed): on an empty Match Set `focus_match` is a no-op; on a
non-empty Match Set of length N it wraps any integer index (negative
included) to `index mod N`, records that as current, selects that match
(which exists), and shows the 1-based "i of N" label; Next/Prev are
`focus_match(current ± 1)`; `focus_match N` equals `focus_match 0` and
`focus_match (-1)` equals `focus_match (N-1)`, so navigation cycles both
ways. -/
theorem C7_focus :
    (∀ (st : ViewerState) (index : Int), st.searchMatches = [] →
        focus_match st index = st) ∧
    (∀ (st : ViewerState) (index : Int), st.searchMatches ≠ [] →
        0 ≤ index % (st.searchMatches.length : Int) ∧
        index % (st.searchMatches.length : Int) < (st.searchMatches.length : Int) ∧
        (focus_match st index).currentMatchIndex =
          index % (st.searchMatches.length : Int) ∧
        (focus_match st index).selectedMatch =
          st.searchMatches[(index % (st.searchMatches.length : Int)).toNat]? ∧
        ((focus_match st index).selectedMatch).isSome = true ∧
        (focus_match st index).matchLabel =
          toString (index % (st.searchMatches.length : Int) + 1) ++ " of " ++
            toString st.searchMatches.length) ∧
    (∀ st : ViewerState, nextClick st = focus_match st (st.currentMatchIndex + 1)) ∧
    (∀ st : ViewerState, prevClick st = focus_match st (st.currentMatchIndex - 1)) ∧
    (∀ st : ViewerState, st.searchMatches ≠ [] →
        focus_match st (st.searchMatches.length : Int) = focus_match st 0 ∧
        focus_match st (-1) = focus_match st ((st.searchMatches.length : Int) - 1)) := by
  refine ⟨?_, ?_, fun _ => rfl, fun _ => rfl, ?_⟩
  · intro st index h
    have hne : st.searchMatches.isEmpty = true := by rw [h]; rfl
    simp [focus_match, hne]
  · intro st index h
    obtain ⟨h0, hlt, heq⟩ := focus_match_spec st index h
    have hlen : 0 < st.searchMatches.length := List.length_pos.mpr h
    refine ⟨h0, hlt, by rw [heq], by rw [heq], ?_, by rw [heq]⟩
    rw [heq]
    show (st.searchMatches[(index % (st.searchMatches.length : Int)).toNat]?).isSome = true
    have hn : (index % (st.searchMatches.length : Int)).toNat < st.searchMatches.length := by
      omega
    rw [List.getElem?_eq_getElem hn]
    rfl
  · intro st h
    have hlen : 0 < st.searchMatches.length := List.length_pos.mpr h
    constructor
    · exact focus_match_congr st (by rw [Int.emod_self, Int.zero_emod])
    · refine focus_match_congr st ?_
      have h1 : (-1 : Int) = ((st.searchMatches.length : Int) - 1) +
          (st.searchMatches.length : Int) * (-1) := by ring
      rw [h1, Int.add_mul_emod_self_left]

/-- The viewer state for the spec's "foo bar foo baz foo" example. -/
def stC7 : ViewerState :=
  { initialViewer with
    textArea := { text := "foo bar foo baz foo".toList, highlights := [] }
    searchMatches := [(0, 3), (8, 3), (16, 3)] }

/-- C7 witness on the spec's example: wrap-around both ways and the
"2 of 3" label at index 1. -/
theorem C7_witness :
    focus_match stC7 3 = focus_match stC7 0 ∧
    focus_match stC7 (-1) = focus_match stC7 2 ∧
    (focus_match stC7 1).currentMatchIndex = 1 ∧
    (focus_match stC7 1).matchLabel = "2 of 3" := by
  have h5 := C7_focus.2.2.2.2 stC7 (by decide)
  have h2 := C7_focus.2.1 stC7 1 (by decide)
  refine ⟨h5.1, ?_, ?_, ?_⟩
  · have := h5.2
    exact this
  · rw [h2.2.2.1]
    decide
  · rw [h2.2.2.2.2.2]
    decide

/-- Below the bare-except fallback value 999, the code's key order and the
spec's order agree. -/
lemma skeyLe_eq_spec {a b : List Char}
    (ha : hasLeadingDigit a = true → digitsToNat (leadingDigits a) < 999)
    (hb : hasLeadingDigit b = true → digitsToNat (leadingDigits b) < 999) :
    skeyLe a b = specSectionLe a b := by
  unfold skeyLe specSectionLe section_sort_key
  cases hda : hasLeadingDigit a with
  | false =>
    cases hdb : hasLeadingDigit b with
    | false => simp
    | true =>
      have h999 := hb hdb
      simp only [Bool.false_eq_true, if_false, if_true]
      simp only [Bool.or_eq_false_iff, decide_eq_false_iff_not, Bool.and_eq_false_iff,
        beq_eq_false_iff_ne, ne_eq]
      omega
  | true =>
    cases hdb : hasLeadingDigit b with
    | false =>
      have h999 := ha hda
      simp only [Bool.false_eq_true, if_false, if_true]
      simp only [Bool.or_eq_true, decide_eq_true_eq]
      left
      omega
    | true => simp

/-- The filesystem for the C4 counterexample: sections "1000" and "n". -/
def fs4 : FS where
  pathExists := fun _ => true
  isDir := fun _ => true
  listDir := fun p =>
    if p = "/a".toList then ListResult.ok ["man1000".toList, "mann".toList]
    else ListResult.ok ["x.y".toList]

/-- C4 (claim as stated is false on the code): the catalog built over
sections "1000" (leading digits) and "n" (no leading digits) places "n"
FIRST, because the bare `except` keys every non-numeric section as 999 and
1000 > 999; the order the claim demands (`specSectionLe`, non-numeric
after all numeric) puts "1000" first. -/
theorem C4_counterexample :
    buildCatalog fs4 ["/a".toList] =
      Except.ok [("n".toList, ["x.n".toList]), ("1000".toList, ["x.1000".toList])] ∧
    hasLeadingDigit ("1000".toList) = true ∧
    hasLeadingDigit ("n".toList) = false ∧
    sortLe (fun a b => specSectionLe a.1 b.1)
        [("n".toList, ["x.n".toList]), ("1000".toList, ["x.1000".toList])] =
      [("1000".toList, ["x.1000".toList]), ("n".toList, ["x.n".toList])] := by
  refine ⟨rfl, by decide, by decide, by decide⟩

/-- C4 (amended): the catalog sorts sections by the key
`(leading-digit value, identifier)` with `999` substituted when there are
no leading digits; consequently, whenever every numeric identifier in the
catalog has value below 999 (true of real manual sections), this coincides
exactly with the claimed order — numeric ascending, non-numeric after all
numeric, ties lexicographic. -/
theorem C4_amended :
    (∀ (fs : FS) (paths : List (List Char)) (st : ScanState),
        scanPaths fs paths = Except.ok st →
        buildCatalog fs paths = Except.ok
          ((sortLe (fun a b => skeyLe a.1 b.1) st.sectionMap).map
            (fun p => (p.1, sortLe lexLe p.2)))) ∧
    (∀ m : List (List Char × List (List Char)),
        (∀ p ∈ m, hasLeadingDigit p.1 = true →
          digitsToNat (leadingDigits p.1) < 999) →
        sortLe (fun a b => skeyLe a.1 b.1) m =
          sortLe (fun a b => specSectionLe a.1 b.1) m) := by
  constructor
  · intro fs paths st h
    unfold buildCatalog
    rw [h]
  · intro m hm
    exact sortLe_congr _ _ m (fun a ha b hb => skeyLe_eq_spec (hm a ha) (hm b hb))

/-- A four-section map covering the spec's "1, 3, 3p, n" example. -/
def mEx : List (List Char × List (List Char)) :=
  [("n".toList, []), ("3p".toList, []), ("3".toList, []), ("1".toList, [])]

/-- The scan state `scanPaths fs4 ["/a"]` produces. -/
def st4 : ScanState :=
  { sectionMap := [("1000".toList, ["x.1000".toList]), ("n".toList, ["x.n".toList])]
    seen := [("x".toList, "n".toList), ("x".toList, "1000".toList)] }

/-- C4 witness: on "1, 3, 3p, n" the code's order and the claim's order
agree and come out as 1, 3, 3p, n; the catalog equation instantiated on
`fs4`. -/
theorem C4_witness :
    sortLe (fun a b => skeyLe a.1 b.1) mEx =
      sortLe (fun a b => specSectionLe a.1 b.1) mEx ∧
    sortLe (fun a b => skeyLe a.1 b.1) mEx =
      [("1".toList, []), ("3".toList, []), ("3p".toList, []), ("n".toList, [])] ∧
    buildCatalog fs4 ["/a".toList] = Except.ok
      ((sortLe (fun a b => skeyLe a.1 b.1) st4.sectionMap).map
        (fun p => (p.1, sortLe lexLe p.2))) := by
  refine ⟨C4_amended.2 mEx (by decide), by decide,
    C4_amended.1 fs4 ["/a".toList] st4 (by rfl)⟩

/-- The filesystem for the C5 counterexample: the section subdirectory
listing is permission-denied. -/
def fs5 : FS where
  pathExists := fun _ => true
  isDir := fun _ => true
  listDir := fun p =>
    if p = "/a".toList then ListResult.ok ["man1".toList]
    else ListResult.permissionDenied

/-- C5 (claim as stated is false on the code): a denied listing is NOT
silently skipped — only `FileNotFoundError` is caught, so a
`PermissionError` on the `man1` subdirectory listing propagates and the
whole scan aborts with an error. -/
theorem C5_counterexample :
    fs5.pathExists ("/a".toList) = true ∧
    fs5.listDir (joinPath ("/a".toList) ("man1".toList)) = ListResult.permissionDenied ∧
    buildCatalog fs5 ["/a".toList] = Except.error pErr := by
  refine ⟨rfl, by decide, rfl⟩

/-- C5 (amended): the scan silently skips search-path directories that do
not exist, and section subdirectories whose listing raises
`FileNotFoundError`; but a `PermissionError` from any listing — and a
`FileNotFoundError` from a top-level listing — is caught by no handler and
aborts the scan with that error. -/
theorem C5_amended :
    (∀ (fs : FS) (st : ScanState) (path : List Char),
        fs.pathExists path = false → processPath fs st path = Except.ok st) ∧
    (∀ (fs : FS) (st : ScanState) (path : List Char) (rest : List (List Char)),
        fs.pathExists path = false →
        (path :: rest).foldlM (processPath fs) st = rest.foldlM (processPath fs) st) ∧
    (∀ (fs : FS) (st : ScanState) (path entry : List Char),
        startsWithMan entry = true → fs.isDir (joinPath path entry) = true →
        fs.listDir (joinPath path entry) = ListResult.notFound →
        processEntry fs path st entry = Except.ok st) ∧
    (∀ (fs : FS) (st : ScanState) (path entry : List Char),
        startsWithMan entry = true → fs.isDir (joinPath path entry) = true →
        fs.listDir (joinPath path entry) = ListResult.permissionDenied →
        processEntry fs path st entry = Except.error pErr) ∧
    (∀ (fs : FS) (st : ScanState) (path : List Char),
        fs.pathExists path = true → fs.listDir path = ListResult.notFound →
        processPath fs st path = Except.error fnfErr) := by
  refine ⟨?_, ?_, ?_, ?_, ?_⟩
  · intro fs st path h
    simp [processPath, h]
  · intro fs st path rest h
    rw [List.foldlM_cons]
    have h1 : processPath fs st path = Except.ok st := by simp [processPath, h]
    rw [h1]
    rfl
  · intro fs st path entry h1 h2 h3
    simp [processEntry, h1, h2, h3]
  · intro fs st path entry h1 h2 h3
    simp [processEntry, h1, h2, h3]
  · intro fs st path h1 h2
    simp [processPath, h1, h2]

/-- A filesystem on which no search-path directory exists. -/
def fsGone : FS where
  pathExists := fun _ => false
  isDir := fun _ => false
  listDir := fun _ => ListResult.ok []

/-- A filesystem whose `man1` subdirectory vanishes between the two
listings (`FileNotFoundError`). -/
def fsVanish : FS where
  pathExists := fun _ => true
  isDir := fun _ => true
  listDir := fun p =>
    if p = "/a".toList then ListResult.ok ["man1".toList]
    else ListResult.notFound

/-- The empty scan state. -/
def st0 : ScanState := { sectionMap := [], seen := [] }

/-- C5 witness: a missing directory and a vanished subdirectory are
skipped with the state unchanged; the denied one aborts. -/
theorem C5_witness :
    processPath fsGone st0 ("/a".toList) = Except.ok st0 ∧
    scanPaths fsGone ["/a".toList] = Except.ok st0 ∧
    processEntry fsVanish ("/a".toList) st0 ("man1".toList) = Except.ok st0 ∧
    processEntry fs5 ("/a".toList) st0 ("man1".toList) = Except.error pErr := by
  refine ⟨C5_amended.1 fsGone st0 _ rfl, ?_,
    C5_amended.2.2.1 fsVanish st0 _ _ (by decide) rfl (by decide),
    C5_amended.2.2.2.1 fs5 st0 _ _ (by decide) rfl (by decide)⟩
  have h2 := C5_amended.2.1 fsGone st0 ("/a".toList) [] rfl
  exact h2

/-- C8 (confirmed): however the filesystem looks — including the same page
file under several search-path directories — a successfully built catalog
holds at most one entry for any `(name, section)` pair; the `seen` set is
seeded empty and the first discovery wins. -/
theorem C8_dedup :
    ∀ (fs : FS) (paths : List (List Char))
      (cat : List (List Char × List (List Char))) (name sec : List Char),
      buildCatalog fs paths = Except.ok cat → smCount cat name sec ≤ 1 := by
  intro fs paths cat name sec h
  unfold buildCatalog at h
  cases hscan : scanPaths fs paths with
  | error e =>
    rw [hscan] at h
    exact absurd h (by simp)
  | ok st =>
    rw [hscan] at h
    injection h with h
    rw [← h, smCount_sorted]
    exact ((scanPaths_inv fs paths st hscan) name sec).1

/-- A filesystem where `ls.1` exists under both `/a/man1` and `/b/man1`. -/
def fs8 : FS where
  pathExists := fun _ => true
  isDir := fun _ => true
  listDir := fun p =>
    if p = "/a".toList then ListResult.ok ["man1".toList]
    else if p = "/b".toList then ListResult.ok ["man1".toList]
    else ListResult.ok ["ls.1".toList]

/-- C8 witness: the duplicated `ls.1` appears exactly once. -/
theorem C8_witness :
    buildCatalog fs8 ["/a".toList, "/b".toList] =
      Except.ok [("1".toList, ["ls.1".toList])] ∧
    smCount [("1".toList, ["ls.1".toList])] ("ls".toList) ("1".toList) ≤ 1 := by
  refine ⟨rfl, ?_⟩
  exact C8_dedup fs8 ["/a".toList, "/b".toList] _ ("ls".toList) ("1".toList) rfl

end MPE
